import Mathlib

/-!
Shallow embedding of the statistical core of the MCMC-FaultSlipRates
repository (files `PDFanalysis.py` and `dividePDFs.py`), over exact
rational arithmetic.  Array operations of numpy/scipy are rendered as
list functions; division by zero follows the Lean convention `a / 0 = 0`
(commented where it matters).  Fallible numpy operations (reductions over
empty arrays, out-of-bounds interpolation with `bounds_error=True`) are
modelled with `Option`.
-/

namespace FaultSlipRates

/-- Trapezoidal integral `np.trapz(y, x)`: sum of `(x_{i+1}-x_i)*(y_i+y_{i+1})/2`. -/
def trapz : List ℚ → List ℚ → ℚ
  | y0 :: y1 :: ys, x0 :: x1 :: xs => (x1 - x0) * (y0 + y1) / 2 + trapz (y1 :: ys) (x1 :: xs)
  | _, _ => 0

/-- Tail of `scipy.integrate.cumtrapz(y, x, initial=0)`: running trapezoidal sums
starting from accumulator `acc`. -/
def cumtrapzFrom (acc : ℚ) : List ℚ → List ℚ → List ℚ
  | y0 :: y1 :: ys, x0 :: x1 :: xs =>
      (acc + (x1 - x0) * (y0 + y1) / 2) ::
        cumtrapzFrom (acc + (x1 - x0) * (y0 + y1) / 2) (y1 :: ys) (x1 :: xs)
  | _, _ => []

/-- `scipy.integrate.cumtrapz(y, x, initial=0)`: same length as `x`, anchored at 0. -/
def cumtrapz (y x : List ℚ) : List ℚ :=
  match y, x with
  | _ :: _, _ :: _ => 0 :: cumtrapzFrom 0 y x
  | _, _ => []

/-- Running sums `np.cumsum`, continuing from accumulator `acc`. -/
def cumsumFrom (acc : ℚ) : List ℚ → List ℚ
  | [] => []
  | a :: l => (acc + a) :: cumsumFrom (acc + a) l

/-- `np.cumsum l`. -/
def cumsum (l : List ℚ) : List ℚ := cumsumFrom 0 l

/-- `np.diff x`: successive differences. -/
def diffs : List ℚ → List ℚ
  | a :: b :: l => (b - a) :: diffs (b :: l)
  | _ => []

/-- `np.mean l` (empty list gives `0/0 = 0` in ℚ; numpy would give nan). -/
def mean (l : List ℚ) : ℚ := l.sum / l.length

/-- `np.min` / `.min()`: `none` models the `ValueError` raised on an empty array. -/
def npmin : List ℚ → Option ℚ
  | [] => none
  | a :: l => some (l.foldl min a)

/-- `np.max` / `.max()`: `none` models the `ValueError` raised on an empty array. -/
def npmax : List ℚ → Option ℚ
  | [] => none
  | a :: l => some (l.foldl max a)

/-- The statement `px /= np.trapz(px, x)` shared by `IQRpdf` and `HPDpdf`
(PDFanalysis.py lines 31 and 79).  In the source this divides the caller's
numpy buffer in place; the value left in the buffer is this list. -/
def normalizePx (x px : List ℚ) : List ℚ := px.map (· / trapz px x)

/-- Linear interpolation through knots `(x_i, y_i)` (`scipy.interpolate.interp1d`,
`kind='linear'`), evaluated inside the knot range at the first segment containing
the query.  On a plateau `x_i = x_{i+1}` the ℚ convention `a/0 = 0` returns the
left knot value (the first crossing). -/
def interpPts : List (ℚ × ℚ) → ℚ → ℚ
  | [], _ => 0
  | [k], _ => k.2
  | k :: k2 :: ks, t =>
      if t ≤ k2.1 then k.2 + (t - k.1) * (k2.2 - k.2) / (k2.1 - k.1)
      else interpPts (k2 :: ks) t

/-- `interp1d(xs, ys, kind='linear', bounds_error=False, fill_value=0)`:
zero outside the knot range, linear interpolation inside.  The scipy
constructor rejects fewer than two knots with a `ValueError`; that failure is
modelled at the construction site in `PDFquotient`, which never evaluates
this function on the nil or singleton cases below. -/
def interp0 (ks : List (ℚ × ℚ)) (t : ℚ) : ℚ :=
  match ks with
  | [] => 0
  | k :: _ => if t < k.1 ∨ (ks.getLastD k).1 < t then 0 else interpPts ks t

/-- `np.arange start stop step`: the `⌈(stop-start)/step⌉` values `start + k*step`. -/
def arange (start stop step : ℚ) : List ℚ :=
  (List.range (Int.toNat ⌈(stop - start) / step⌉)).map (fun k : ℕ => start + (k : ℚ) * step)

/-- `IQRpdf(x, px, confidence)` of PDFanalysis.py: convert the confidence from
percent, normalize `px` in place, integrate to the CDF `Px = cumtrapz(px, x, initial=0)`,
and invert the CDF by linear interpolation (`interp1d(Px, x)`) at the two targets
`0.5 ± confidence/2`.  `none` models the `ValueError` scipy raises when the
interpolator is built on fewer than two points or queried outside `[Px[0], Px[-1]]`
(`bounds_error` defaults to `True`). -/
def IQRpdf (x px : List ℚ) (confidence : ℚ) : Option (ℚ × ℚ) :=
  let c := confidence / 100
  let lower := 1/2 - c/2
  let upper := 1/2 + c/2
  let px1 := normalizePx x px
  let Px := cumtrapz px1 x
  match Px with
  | [] => none
  | [_] => none
  | P0 :: _ :: _ =>
      let Pn := Px.getLastD P0
      if lower < P0 ∨ Pn < lower ∨ upper < P0 ∨ Pn < upper then none
      else some (interpPts (Px.zip x) lower, interpPts (Px.zip x) upper)

/-- Value left in the caller's `px` buffer after `IQRpdf` returns: the source's
`px/=P` (PDFanalysis.py line 31) divides the caller's numpy array in place. -/
def IQRfinalPx (x px : List ℚ) : List ℚ := normalizePx x px

/-- Sorting step of `HPDpdf`: `sortNdx = np.argsort(px)[::-1]` applied to the
samples, i.e. the `(x, px)` pairs arranged from highest to lowest density
(ascending sort then reversal).  numpy's default quicksort leaves the order of
equal densities unspecified; the embedding fixes a deterministic order by
using a stable insertion sort before the reversal. -/
def hpdSorted (x px1 : List ℚ) : List (ℚ × ℚ) :=
  (List.insertionSort (fun a b : ℚ × ℚ => a.2 ≤ b.2) (x.zip px1)).reverse

/-- Retained samples of `HPDpdf`: cumulative sums of the descending densities
(`PxSort = np.cumsum(pxSort)`), normalized by `PxSort.max()`, and the samples
kept where that running fraction is `≤ confidence`
(PDFanalysis.py lines 91-100).  The empty-input case (where `.max()` would
raise) yields `[]`; `HPDpdf` then fails at `xRelevant.min()` anyway. -/
def hpdRelevant (x px1 : List ℚ) (c : ℚ) : List (ℚ × ℚ) :=
  let s := hpdSorted x px1
  let cum := cumsum (s.map Prod.snd)
  match npmax cum with
  | none => []
  | some m => ((s.zip (cum.map (· / m))).filter (fun pc => pc.2 ≤ c)).map Prod.fst

/-- Cluster identification of `HPDpdf` (PDFanalysis.py lines 112-121): scanning
the x-sorted retained samples, a new cluster starts whenever the gap between
consecutive `x` values exceeds `tol = step_tolerance*avestep`; the final slice
`xRelevant[breakpt:]` is always appended (so an empty input yields `[[]]`,
matching the loop appending an empty final slice). -/
def gapSplit (tol : ℚ) : List (ℚ × ℚ) → List (List (ℚ × ℚ))
  | [] => [[]]
  | [a] => [[a]]
  | a :: b :: l =>
      match gapSplit tol (b :: l) with
      | [] => [[a]]
      | c :: cs => if b.1 - a.1 > tol then [a] :: c :: cs else (a :: c) :: cs

/-- `HPDpdf(x, px, confidence)` of PDFanalysis.py: normalize `px` in place,
compute the mean sample spacing (the spacing check only prints a warning),
retain the highest-density samples whose cumulative fraction is `≤ confidence/100`,
re-sort them by `x`, take `min`/`max`, and split into clusters at gaps larger
than `1.01` times the mean spacing.  The clusters pair the `x_clusters` and
`px_clusters` slices, which the source cuts at identical breakpoints.  `none`
models the `ValueError` raised by `xRelevant.min()` when no sample is retained
(and by `PxSort.max()` when the input is empty). -/
def HPDpdf (x px : List ℚ) (confidence : ℚ) :
    Option (ℚ × ℚ × List (List (ℚ × ℚ))) :=
  let c := confidence / 100
  let px1 := normalizePx x px
  let avestep := mean (diffs x)
  let tol := (101/100) * avestep
  let rel := hpdRelevant x px1 c
  let relS := List.insertionSort (fun a b : ℚ × ℚ => a.1 ≤ b.1) rel
  match npmin (relS.map Prod.fst), npmax (relS.map Prod.fst) with
  | some lo, some hi => some (lo, hi, gapSplit tol relS)
  | _, _ => none

/-- Value left in the caller's `px` buffer after `HPDpdf` returns: the source's
`px/=P` (PDFanalysis.py line 79) divides the caller's numpy array in place. -/
def HPDfinalPx (x px : List ℚ) : List ℚ := normalizePx x px

/-- `PDFquotient.__formatPDF__`: normalize the density to unit trapezoidal
area, then keep only samples with `X > 0`, then only those with `pX > 0`
(dividePDFs.py lines 70-87). -/
def formatPDF (X pX : List ℚ) : List ℚ × List ℚ :=
  let pX1 := pX.map (· / trapz pX X)
  let pairs := ((X.zip pX1).filter (fun v => 0 < v.1)).filter (fun v => 0 < v.2)
  (pairs.map Prod.fst, pairs.map Prod.snd)

/-- One summand-free evaluation of the convolution in `PDFquotient.__dividePDFs__`:
`np.sum(self.pXdenom * Inumer(q*self.Xdenom) * self.Xdenom)` where `Inumer` is
`interp1d(Xnumer, pXnumer, kind='linear', bounds_error=False, fill_value=0)`. -/
def quotDensity (Xnum pXnum Xden pXden : List ℚ) (q : ℚ) : ℚ :=
  ((Xden.zip pXden).map (fun yp => yp.2 * interp0 (Xnum.zip pXnum) (q * yp.1) * yp.1)).sum

/-- Upper axis limit of `__estbQuotientAxis__`: `Xnumer.max()/Xdenom.min()`,
capped by `np.min([..., Qmax])` when the caller supplied a maximum quotient. -/
def quotQmaxVal (nhi dlo : ℚ) : Option ℚ → ℚ
  | none => nhi / dlo
  | some qm => min (nhi / dlo) qm

/-- Step size of `__estbQuotientAxis__`: the caller's `stepSize` if given,
else `(Qmax - Qmin)/1000`. -/
def quotStepVal (Qmin Qmax : ℚ) : Option ℚ → ℚ
  | none => (Qmax - Qmin) / 1000
  | some s => s

/-- The full `PDFquotient` pipeline of dividePDFs.py: format both inputs,
build the quotient axis `Q = np.arange(Qmin, Qmax+stepSize, stepSize)` with
`Qmin = Xnumer.min()/Xdenom.max()`, evaluate the convolution at every axis
point and normalize to unit trapezoidal area.  `none` models two failure
paths of the source: the `ValueError` raised by `.min()`/`.max()` on an empty
filtered array in `__estbQuotientAxis__`, and the `ValueError` raised by the
`interp1d(self.Xnumer, self.pXnumer, kind='linear', ...)` constructor in
`__dividePDFs__` when the filtered numerator holds fewer than two samples
(scipy: x and y arrays must have at least 2 entries). -/
def PDFquotient (Xn pXn Xd pXd : List ℚ) (stepSize QmaxU : Option ℚ) :
    Option (List ℚ × List ℚ) :=
  let fn := formatPDF Xn pXn
  let fd := formatPDF Xd pXd
  match npmin fn.1, npmax fn.1, npmin fd.1, npmax fd.1 with
  | some nlo, some nhi, some dlo, some dhi =>
      let Qmin := nlo / dhi
      let Qmax := quotQmaxVal nhi dlo QmaxU
      let step := quotStepVal Qmin Qmax stepSize
      let Q := arange Qmin (Qmax + step) step
      if 2 ≤ fn.1.length then
        let praw := Q.map (quotDensity fn.1 fn.2 fd.1 fd.2)
        some (Q, praw.map (· / trapz praw Q))
      else none
  | _, _, _, _ => none

/-- The retained-sample characterization worded by the specification: running
cumulative sums of the descending densities divided by the plain sum of all
re-normalized density values (instead of by the cumulative maximum). -/
def hpdRelevantSpec (x px1 : List ℚ) (c : ℚ) : List (ℚ × ℚ) :=
  let s := hpdSorted x px1
  ((s.zip ((cumsum (s.map Prod.snd)).map (· / px1.sum))).filter
    (fun pc => pc.2 ≤ c)).map Prod.fst

/-! ### Lemmas about the numeric primitives -/

theorem trapz_shape (y x : List ℚ) (h : trapz y x ≠ 0) :
    ∃ y0 y1 ys x0 x1 xs, y = y0 :: y1 :: ys ∧ x = x0 :: x1 :: xs := by
  match y, x with
  | y0 :: y1 :: ys, x0 :: x1 :: xs => exact ⟨y0, y1, ys, x0, x1, xs, rfl, rfl⟩
  | [], x => simp [trapz] at h
  | [y0], x => simp [trapz] at h
  | y0 :: y1 :: ys, [] => simp [trapz] at h
  | y0 :: y1 :: ys, [x0] => simp [trapz] at h

theorem trapz_map_div : ∀ (y x : List ℚ) (c : ℚ),
    trapz (y.map (· / c)) x = trapz y x / c
  | y0 :: y1 :: ys, x0 :: x1 :: xs, c => by
      have ih := trapz_map_div (y1 :: ys) (x1 :: xs) c
      simp only [List.map_cons] at ih ⊢
      simp only [trapz, ih]
      rcases eq_or_ne c 0 with rfl | hc
      · simp
      · field_simp
        ring
  | [], x, c => by simp [trapz]
  | [y0], x, c => by simp [trapz]
  | y0 :: y1 :: ys, [], c => by simp [trapz]
  | y0 :: y1 :: ys, [x0], c => by simp [trapz]

theorem trapz_map_mul : ∀ (y x : List ℚ) (c : ℚ),
    trapz (y.map (c * ·)) x = c * trapz y x
  | y0 :: y1 :: ys, x0 :: x1 :: xs, c => by
      have ih := trapz_map_mul (y1 :: ys) (x1 :: xs) c
      simp only [List.map_cons] at ih ⊢
      simp only [trapz, ih]
      ring
  | [], x, c => by simp [trapz]
  | [y0], x, c => by simp [trapz]
  | y0 :: y1 :: ys, [], c => by simp [trapz]
  | y0 :: y1 :: ys, [x0], c => by simp [trapz]

theorem cumtrapzFrom_length : ∀ (acc : ℚ) (y x : List ℚ), y.length = x.length →
    (cumtrapzFrom acc y x).length = x.length - 1
  | acc, y0 :: y1 :: ys, x0 :: x1 :: xs, h => by
      have ih := cumtrapzFrom_length (acc + (x1 - x0) * (y0 + y1) / 2)
        (y1 :: ys) (x1 :: xs) (by simpa using h)
      simp only [cumtrapzFrom, List.length_cons, ih]
      omega
  | acc, [], x, h => by
      simp only [List.length] at h
      simp [cumtrapzFrom, ← h]
  | acc, [y0], x, h => by
      simp only [List.length] at h
      simp [cumtrapzFrom, ← h]
  | acc, y0 :: y1 :: ys, [], h => by simp at h
  | acc, y0 :: y1 :: ys, [x0], h => by simp [cumtrapzFrom]

theorem cumtrapzFrom_getLastD : ∀ (acc d : ℚ) (y x : List ℚ),
    (acc :: cumtrapzFrom acc y x).getLastD d = acc + trapz y x
  | acc, d, y0 :: y1 :: ys, x0 :: x1 :: xs => by
      have ih := cumtrapzFrom_getLastD (acc + (x1 - x0) * (y0 + y1) / 2) acc
        (y1 :: ys) (x1 :: xs)
      simp only [cumtrapzFrom, trapz, List.getLastD_cons] at ih ⊢
      rw [ih]; ring
  | acc, d, [], x => by simp [cumtrapzFrom, trapz]
  | acc, d, [y0], x => by simp [cumtrapzFrom, trapz]
  | acc, d, y0 :: y1 :: ys, [] => by simp [cumtrapzFrom, trapz]
  | acc, d, y0 :: y1 :: ys, [x0] => by simp [cumtrapzFrom, trapz]

theorem cumtrapzFrom_chain : ∀ (acc : ℚ) (y x : List ℚ),
    (∀ p ∈ y, 0 ≤ p) → List.Chain' (· ≤ ·) x →
    List.Chain' (· ≤ ·) (acc :: cumtrapzFrom acc y x)
  | acc, y0 :: y1 :: ys, x0 :: x1 :: xs, hy, hx => by
      have hstep : (0:ℚ) ≤ (x1 - x0) * (y0 + y1) / 2 := by
        apply div_nonneg _ (by norm_num)
        apply mul_nonneg
        · have := List.chain'_cons.mp hx
          linarith [this.1]
        · have h0 := hy y0 (by simp)
          have h1 := hy y1 (by simp)
          linarith
      have ih := cumtrapzFrom_chain (acc + (x1 - x0) * (y0 + y1) / 2)
        (y1 :: ys) (x1 :: xs) (fun p hp => hy p (List.mem_cons_of_mem _ hp))
        (List.chain'_cons.mp hx).2
      simp only [cumtrapzFrom]
      exact List.chain'_cons.mpr ⟨by linarith, ih⟩
  | acc, [], x, hy, hx => by simp [cumtrapzFrom]
  | acc, [y0], x, hy, hx => by simp [cumtrapzFrom]
  | acc, y0 :: y1 :: ys, [], hy, hx => by simp [cumtrapzFrom]
  | acc, y0 :: y1 :: ys, [x0], hy, hx => by simp [cumtrapzFrom]

theorem cumsumFrom_getLastD : ∀ (acc d : ℚ) (l : List ℚ),
    (acc :: cumsumFrom acc l).getLastD d = acc + l.sum
  | acc, d, [] => by simp [cumsumFrom]
  | acc, d, b :: l => by
      have ih := cumsumFrom_getLastD (acc + b) acc l
      simp only [cumsumFrom, List.getLastD_cons, List.sum_cons] at ih ⊢
      rw [ih]; ring

theorem cumsumFrom_chain : ∀ (acc : ℚ) (l : List ℚ), (∀ p ∈ l, 0 ≤ p) →
    List.Chain' (· ≤ ·) (acc :: cumsumFrom acc l)
  | acc, [], h => by simp [cumsumFrom]
  | acc, b :: l, h => by
      have ih := cumsumFrom_chain (acc + b) l (fun p hp => h p (List.mem_cons_of_mem _ hp))
      simp only [cumsumFrom]
      exact List.chain'_cons.mpr ⟨by linarith [h b (by simp)], ih⟩

theorem foldl_min_le : ∀ (l : List ℚ) (a : ℚ),
    l.foldl min a ≤ a ∧ ∀ b ∈ l, l.foldl min a ≤ b
  | [], a => by simp
  | b :: l, a => by
      have ih := foldl_min_le l (min a b)
      refine ⟨le_trans ih.1 (min_le_left a b), ?_⟩
      intro c hc
      rcases List.mem_cons.mp hc with rfl | hc
      · exact le_trans ih.1 (min_le_right a c)
      · exact ih.2 c hc

theorem foldl_min_mem : ∀ (l : List ℚ) (a : ℚ), l.foldl min a ∈ a :: l
  | [], a => by simp
  | b :: l, a => by
      have ih := foldl_min_mem l (min a b)
      simp only [List.foldl]
      rcases List.mem_cons.mp ih with h | h
      · rcases min_choice a b with hab | hab <;> rw [h, hab] <;> simp
      · exact List.mem_cons_of_mem _ (List.mem_cons_of_mem _ h)

theorem foldl_max_ge : ∀ (l : List ℚ) (a : ℚ),
    a ≤ l.foldl max a ∧ ∀ b ∈ l, b ≤ l.foldl max a
  | [], a => by simp
  | b :: l, a => by
      have ih := foldl_max_ge l (max a b)
      refine ⟨le_trans (le_max_left a b) ih.1, ?_⟩
      intro c hc
      rcases List.mem_cons.mp hc with rfl | hc
      · exact le_trans (le_max_right a c) ih.1
      · exact ih.2 c hc

theorem foldl_max_mem : ∀ (l : List ℚ) (a : ℚ), l.foldl max a ∈ a :: l
  | [], a => by simp
  | b :: l, a => by
      have ih := foldl_max_mem l (max a b)
      simp only [List.foldl]
      rcases List.mem_cons.mp ih with h | h
      · rcases max_choice a b with hab | hab <;> rw [h, hab] <;> simp
      · exact List.mem_cons_of_mem _ (List.mem_cons_of_mem _ h)

theorem npmin_spec (l : List ℚ) (m : ℚ) (h : npmin l = some m) :
    m ∈ l ∧ ∀ a ∈ l, m ≤ a := by
  match l with
  | [] => simp [npmin] at h
  | a :: l =>
      simp only [npmin, Option.some_inj] at h
      subst h
      refine ⟨foldl_min_mem l a, ?_⟩
      intro b hb
      rcases List.mem_cons.mp hb with rfl | hb
      · exact (foldl_min_le l b).1
      · exact (foldl_min_le l a).2 b hb

theorem npmax_spec (l : List ℚ) (m : ℚ) (h : npmax l = some m) :
    m ∈ l ∧ ∀ a ∈ l, a ≤ m := by
  match l with
  | [] => simp [npmax] at h
  | a :: l =>
      simp only [npmax, Option.some_inj] at h
      subst h
      refine ⟨foldl_max_mem l a, ?_⟩
      intro b hb
      rcases List.mem_cons.mp hb with rfl | hb
      · exact (foldl_max_ge l b).1
      · exact (foldl_max_ge l a).2 b hb

theorem foldl_max_of_chain : ∀ (l : List ℚ) (a : ℚ),
    List.Chain' (· ≤ ·) (a :: l) → l.foldl max a = l.getLastD a
  | [], a, _ => by simp
  | b :: l, a, h => by
      have hab : a ≤ b := (List.chain'_cons.mp h).1
      have ih := foldl_max_of_chain l b (List.chain'_cons.mp h).2
      simp only [List.foldl, List.getLastD_cons, max_eq_right hab, ih]

theorem npmax_cumsum_eq_sum (l : List ℚ) (hne : l ≠ []) (hnn : ∀ p ∈ l, 0 ≤ p) :
    npmax (cumsum l) = some l.sum := by
  match l with
  | b :: l =>
      have hchain := cumsumFrom_chain 0 (b :: l) hnn
      simp only [cumsum, cumsumFrom] at hchain ⊢
      rw [npmax, foldl_max_of_chain _ _ (hchain.tail)]
      have := cumsumFrom_getLastD (0 + b) 0 l
      simp only [List.getLastD_cons] at this ⊢
      rw [this]
      simp [List.sum_cons]

/-! ### Chain lemmas for zipped knot lists -/

theorem chain_zip_left {α : Type} (r : ℚ → ℚ → Prop) :
    ∀ (xs : List ℚ) (ys : List α), List.Chain' r xs →
      List.Chain' (fun a b : ℚ × α => r a.1 b.1) (xs.zip ys)
  | [], _, _ => by simp
  | [x], ys, _ => by cases ys <;> simp
  | x1 :: x2 :: xs, [], h => by simp
  | x1 :: x2 :: xs, [y1], h => by simp
  | x1 :: x2 :: xs, y1 :: y2 :: ys, h => by
      have ih := chain_zip_left r (x2 :: xs) (y2 :: ys) (List.chain'_cons.mp h).2
      exact List.chain'_cons.mpr ⟨(List.chain'_cons.mp h).1, ih⟩

theorem chain_zip_right {α : Type} (r : ℚ → ℚ → Prop) :
    ∀ (xs : List α) (ys : List ℚ), List.Chain' r ys →
      List.Chain' (fun a b : α × ℚ => r a.2 b.2) (xs.zip ys)
  | [], _, _ => by simp
  | [x], ys, _ => by cases ys <;> simp
  | x1 :: x2 :: xs, [], h => by simp
  | x1 :: x2 :: xs, [y1], h => by simp
  | x1 :: x2 :: xs, y1 :: y2 :: ys, h => by
      have ih := chain_zip_right r (x2 :: xs) (y2 :: ys) (List.chain'_cons.mp h).2
      exact List.chain'_cons.mpr ⟨(List.chain'_cons.mp h).1, ih⟩

theorem zip_getLastD {α β : Type} : ∀ (xs : List α) (ys : List β) (dx : α) (dy : β),
    xs.length = ys.length → (xs.zip ys).getLastD (dx, dy) = (xs.getLastD dx, ys.getLastD dy)
  | [], [], dx, dy, _ => by simp
  | [], y :: ys, dx, dy, h => by simp at h
  | x :: xs, [], dx, dy, h => by simp at h
  | [x], [y], dx, dy, _ => by simp
  | [x], y1 :: y2 :: ys, dx, dy, h => by simp at h
  | x1 :: x2 :: xs, [y], dx, dy, h => by simp at h
  | x1 :: x2 :: xs, y1 :: y2 :: ys, dx, dy, h => by
      have ih := zip_getLastD (x2 :: xs) (y2 :: ys) x1 y1 (by simpa using h)
      simp only [List.zip_cons_cons, List.getLastD_cons] at ih ⊢
      exact ih

/-! ### Interpolation lemmas -/

theorem interpPts_nil (t : ℚ) : interpPts [] t = 0 := rfl

theorem interpPts_single (k : ℚ × ℚ) (t : ℚ) : interpPts [k] t = k.2 := rfl

theorem interpPts_cons (k k2 : ℚ × ℚ) (ks : List (ℚ × ℚ)) (t : ℚ) :
    interpPts (k :: k2 :: ks) t =
      if t ≤ k2.1 then k.2 + (t - k.1) * (k2.2 - k.2) / (k2.1 - k.1)
      else interpPts (k2 :: ks) t := rfl

theorem interpPts_headKnot : ∀ (ks : List (ℚ × ℚ)) (k : ℚ × ℚ),
    List.Chain' (fun a b : ℚ × ℚ => a.1 ≤ b.1) (k :: ks) →
    interpPts (k :: ks) k.1 = k.2
  | [], k, _ => interpPts_single k k.1
  | k2 :: ks, k, h => by
      have h12 : k.1 ≤ k2.1 := (List.chain'_cons.mp h).1
      rw [interpPts_cons, if_pos h12, sub_self, zero_mul, zero_div, add_zero]

theorem interpPts_gt_head : ∀ (ks : List (ℚ × ℚ)) (k0 k1 : ℚ × ℚ) (t : ℚ),
    List.Chain' (fun a b : ℚ × ℚ => a.1 ≤ b.1) (k0 :: k1 :: ks) →
    List.Chain' (fun a b : ℚ × ℚ => a.2 < b.2) (k0 :: k1 :: ks) →
    k0.1 < t → t ≤ ((k0 :: k1 :: ks).getLastD k0).1 →
    k0.2 < interpPts (k0 :: k1 :: ks) t
  | [], k0, k1, t, h1, h2, hlo, hhi => by
      simp only [List.getLastD_cons, List.getLastD_nil] at hhi
      have h01 : k0.1 < k1.1 := lt_of_lt_of_le hlo hhi
      have hv : k0.2 < k1.2 := (List.chain'_cons.mp h2).1
      rw [interpPts_cons, if_pos hhi]
      have : 0 < (t - k0.1) * (k1.2 - k0.2) / (k1.1 - k0.1) :=
        div_pos (mul_pos (by linarith) (by linarith)) (by linarith)
      linarith
  | k2 :: ks, k0, k1, t, h1, h2, hlo, hhi => by
      by_cases ht : t ≤ k1.1
      · have h01 : k0.1 < k1.1 := lt_of_lt_of_le hlo ht
        have hv : k0.2 < k1.2 := (List.chain'_cons.mp h2).1
        rw [interpPts_cons, if_pos ht]
        have : 0 < (t - k0.1) * (k1.2 - k0.2) / (k1.1 - k0.1) :=
          div_pos (mul_pos (by linarith) (by linarith)) (by linarith)
        linarith
      · push_neg at ht
        have ih := interpPts_gt_head ks k1 k2 t (List.chain'_cons.mp h1).2
          (List.chain'_cons.mp h2).2 ht (by simpa [List.getLastD_cons] using hhi)
        have hv : k0.2 < k1.2 := (List.chain'_cons.mp h2).1
        rw [interpPts_cons, if_neg (not_le.mpr ht)]
        exact lt_trans hv ih

theorem interp_roundtrip : ∀ (ks : List (ℚ × ℚ)) (k0 : ℚ × ℚ) (t : ℚ),
    List.Chain' (fun a b : ℚ × ℚ => a.1 ≤ b.1) (k0 :: ks) →
    List.Chain' (fun a b : ℚ × ℚ => a.2 < b.2) (k0 :: ks) →
    k0.1 ≤ t → t ≤ ((k0 :: ks).getLastD k0).1 →
    interpPts ((k0 :: ks).map Prod.swap) (interpPts (k0 :: ks) t) = t
  | [], k0, t, h1, h2, hlo, hhi => by
      simp only [List.getLastD_cons, List.getLastD_nil] at hhi
      have ht0 : t = k0.1 := le_antisymm hhi hlo
      simp [interpPts_single, ht0]
  | k1 :: ks, k0, t, h1, h2, hlo, hhi => by
      by_cases ht : t ≤ k1.1
      · rcases eq_or_lt_of_le ((List.chain'_cons.mp h1).1) with heq | hstrict
        · -- plateau in the first components: t = k0.1 = k1.1, and the ℚ
          -- convention 0/0 = 0 returns the left knot.
          have ht0 : t = k0.1 := le_antisymm (heq ▸ ht) hlo
          have hin : interpPts (k0 :: k1 :: ks) t = k0.2 := by
            rw [interpPts_cons, if_pos ht, ht0, sub_self, zero_mul, zero_div, add_zero]
          rw [hin, List.map_cons]
          have hchain : List.Chain' (fun a b : ℚ × ℚ => a.1 ≤ b.1)
              (k0.swap :: (k1 :: ks).map Prod.swap) := by
            rw [← List.map_cons, List.chain'_map]
            exact h2.imp (fun a b h => le_of_lt h)
          have := interpPts_headKnot ((k1 :: ks).map Prod.swap) k0.swap hchain
          simpa [ht0] using this
        · -- regular segment: k0.1 < t ≤ k1.1 with k0.1 < k1.1
          have hv : k0.2 < k1.2 := (List.chain'_cons.mp h2).1
          have hd1 : k1.1 - k0.1 ≠ 0 := by intro h; apply absurd hstrict; rw [sub_eq_zero] at h; simp [h]
          have hd2 : k1.2 - k0.2 ≠ 0 := by intro h; apply absurd hv; rw [sub_eq_zero] at h; simp [h]
          set r := k0.2 + (t - k0.1) * (k1.2 - k0.2) / (k1.1 - k0.1) with hr
          have hin : interpPts (k0 :: k1 :: ks) t = r := by
            rw [interpPts_cons, if_pos ht]
          have hrle : r ≤ k1.2 := by
            rw [hr]
            have h3 : (t - k0.1) * (k1.2 - k0.2) / (k1.1 - k0.1) ≤ k1.2 - k0.2 := by
              rw [div_le_iff₀ (by linarith : (0:ℚ) < k1.1 - k0.1)]
              nlinarith
            linarith
          rw [hin, List.map_cons, List.map_cons, interpPts_cons]
          simp only [Prod.fst_swap, Prod.snd_swap]
          rw [if_pos hrle, hr]
          field_simp
          ring
      · push_neg at ht
        have ih := interp_roundtrip ks k1 t (List.chain'_cons.mp h1).2
          (List.chain'_cons.mp h2).2 (le_of_lt ht) (by simpa [List.getLastD_cons] using hhi)
        match ks, hhi, ih with
        | [], hhi, ih =>
            simp only [List.getLastD_cons, List.getLastD_nil] at hhi
            exact absurd hhi (not_le.mpr ht)
        | k2 :: ks, hhi, ih =>
            have hgt := interpPts_gt_head ks k1 k2 t (List.chain'_cons.mp h1).2
              (List.chain'_cons.mp h2).2 ht (by simpa [List.getLastD_cons] using hhi)
            have hin : interpPts (k0 :: k1 :: k2 :: ks) t = interpPts (k1 :: k2 :: ks) t := by
              rw [interpPts_cons, if_neg (not_le.mpr ht)]
            rw [hin, List.map_cons, List.map_cons, interpPts_cons]
            simp only [Prod.fst_swap, Prod.snd_swap]
            rw [if_neg (not_le.mpr hgt)]
            simpa using ih

/-! ### Assembly lemmas for the CDF inversion -/

theorem normalizePx_nonneg (x px : List ℚ) (hp : ∀ p ∈ px, 0 ≤ p)
    (hT : 0 < trapz px x) : ∀ p ∈ normalizePx x px, 0 ≤ p := by
  intro p hp1
  obtain ⟨q, hq, rfl⟩ := List.mem_map.mp hp1
  exact div_nonneg (hp q hq) (le_of_lt hT)

theorem trapz_normalizePx (x px : List ℚ) (hT : trapz px x ≠ 0) :
    trapz (normalizePx x px) x = 1 := by
  rw [normalizePx, trapz_map_div, div_self hT]

theorem cumtrapz_normalized (x px : List ℚ) (hlen : x.length = px.length)
    (hx : List.Chain' (· ≤ ·) x) (hp : ∀ p ∈ px, 0 ≤ p) (hT : 0 < trapz px x) :
    ∃ c1 cs, cumtrapz (normalizePx x px) x = 0 :: c1 :: cs
      ∧ ((0:ℚ) :: c1 :: cs).getLastD 0 = 1
      ∧ List.Chain' (· ≤ ·) ((0:ℚ) :: c1 :: cs)
      ∧ ((0:ℚ) :: c1 :: cs).length = x.length := by
  obtain ⟨p0, p1, ps, x0, x1, xs, hpx, hxx⟩ := trapz_shape px x (ne_of_gt hT)
  subst hpx; subst hxx
  have hlen1 : (normalizePx (x0 :: x1 :: xs) (p0 :: p1 :: ps)).length
      = (x0 :: x1 :: xs).length := by
    simp only [List.length_cons] at hlen
    simp only [normalizePx, List.length_map, List.length_cons]
    omega
  have hnn := normalizePx_nonneg (x0 :: x1 :: xs) (p0 :: p1 :: ps) hp hT
  set px1 := normalizePx (x0 :: x1 :: xs) (p0 :: p1 :: ps) with hpx1
  have hshape : ∃ q0 q1 qs, px1 = q0 :: q1 :: qs := by
    rw [hpx1, normalizePx]
    exact ⟨_, _, _, rfl⟩
  obtain ⟨q0, q1, qs, hq⟩ := hshape
  rw [hq]
  have hcum : cumtrapz (q0 :: q1 :: qs) (x0 :: x1 :: xs)
      = 0 :: cumtrapzFrom 0 (q0 :: q1 :: qs) (x0 :: x1 :: xs) := rfl
  have hfshape : cumtrapzFrom 0 (q0 :: q1 :: qs) (x0 :: x1 :: xs)
      = (0 + (x1 - x0) * (q0 + q1) / 2) ::
        cumtrapzFrom (0 + (x1 - x0) * (q0 + q1) / 2) (q1 :: qs) (x1 :: xs) := rfl
  refine ⟨_, _, by rw [hcum, hfshape], ?_, ?_, ?_⟩
  · rw [← hfshape]
    have hg := cumtrapzFrom_getLastD 0 0 (q0 :: q1 :: qs) (x0 :: x1 :: xs)
    rw [hg, ← hq, hpx1, trapz_normalizePx _ _ (ne_of_gt hT), zero_add]
  · rw [← hfshape]
    exact cumtrapzFrom_chain 0 (q0 :: q1 :: qs) (x0 :: x1 :: xs) (hq ▸ hnn) hx
  · rw [← hfshape]
    have := cumtrapzFrom_length 0 (q0 :: q1 :: qs) (x0 :: x1 :: xs) (by rw [← hq]; exact hlen1)
    simp only [List.length_cons] at this ⊢
    omega

theorem IQRpdf_some (x px : List ℚ) (conf : ℚ) (hlen : x.length = px.length)
    (hx : List.Chain' (· ≤ ·) x) (hp : ∀ p ∈ px, 0 ≤ p) (hT : 0 < trapz px x)
    (hc0 : -100 ≤ conf) (hc1 : conf ≤ 100) :
    IQRpdf x px conf = some
      (interpPts ((cumtrapz (normalizePx x px) x).zip x) (1/2 - conf/100/2),
       interpPts ((cumtrapz (normalizePx x px) x).zip x) (1/2 + conf/100/2)) := by
  obtain ⟨c1, cs, hPx, hlast, _, _⟩ := cumtrapz_normalized x px hlen hx hp hT
  rw [IQRpdf]
  simp only [hPx]
  rw [hlast]
  rw [if_neg (by push_neg; refine ⟨by linarith, by linarith, by linarith, by linarith⟩)]

theorem IQRpdf_none (x px : List ℚ) (conf : ℚ) (hlen : x.length = px.length)
    (hx : List.Chain' (· ≤ ·) x) (hp : ∀ p ∈ px, 0 ≤ p) (hT : 0 < trapz px x)
    (hc : conf < -100 ∨ 100 < conf) :
    IQRpdf x px conf = none := by
  obtain ⟨c1, cs, hPx, hlast, _, _⟩ := cumtrapz_normalized x px hlen hx hp hT
  rw [IQRpdf]
  simp only [hPx]
  rw [hlast]
  rw [if_pos ?_]
  rcases hc with hc | hc
  · right; left; linarith
  · left; linarith

theorem iqr_roundtrip_target (x px : List ℚ) (t : ℚ)
    (hlen : x.length = px.length) (hx : List.Chain' (· < ·) x)
    (hp : ∀ p ∈ px, 0 ≤ p) (hT : 0 < trapz px x)
    (h0 : 0 ≤ t) (h1 : t ≤ 1) :
    interpPts (x.zip (cumtrapz (normalizePx x px) x))
      (interpPts ((cumtrapz (normalizePx x px) x).zip x) t) = t := by
  obtain ⟨p0, p1, ps, x0, x1, xs, hpx, hxx⟩ := trapz_shape px x (ne_of_gt hT)
  subst hpx; subst hxx
  obtain ⟨c1, cs, hPx, hlast, hchainPx, hlenPx⟩ :=
    cumtrapz_normalized _ _ hlen (hx.imp (fun a b h => le_of_lt h)) hp hT
  rw [hPx]
  have hchain1 : List.Chain' (fun a b : ℚ × ℚ => a.1 ≤ b.1)
      (((0:ℚ) :: c1 :: cs).zip (x0 :: x1 :: xs)) :=
    chain_zip_left _ _ _ hchainPx
  have hchain2 : List.Chain' (fun a b : ℚ × ℚ => a.2 < b.2)
      (((0:ℚ) :: c1 :: cs).zip (x0 :: x1 :: xs)) :=
    chain_zip_right _ _ _ hx
  have hglast := zip_getLastD ((0:ℚ) :: c1 :: cs) (x0 :: x1 :: xs) 0 x0 hlenPx
  have hrt := interp_roundtrip ((c1, x1) :: cs.zip xs) (0, x0) t
    (by simpa [List.zip_cons_cons] using hchain1)
    (by simpa [List.zip_cons_cons] using hchain2)
    (by simpa using h0)
    (by
      simp only [List.zip_cons_cons, List.getLastD_cons] at hglast
      simp only [List.getLastD_cons] at hlast ⊢
      rw [hglast, hlast]
      exact h1)
  have hswap : List.map Prod.swap (((0:ℚ), x0) :: (c1, x1) :: cs.zip xs)
      = (x0 :: x1 :: xs).zip ((0:ℚ) :: c1 :: cs) := by
    simp [List.zip_cons_cons, List.zip_swap]
  rw [hswap] at hrt
  simpa [List.zip_cons_cons] using hrt

/-! ### Cluster-splitting lemmas -/

theorem gapSplit_cons (tol : ℚ) (a b : ℚ × ℚ) (l : List (ℚ × ℚ)) :
    gapSplit tol (a :: b :: l) =
      match gapSplit tol (b :: l) with
      | [] => [[a]]
      | c :: cs => if b.1 - a.1 > tol then [a] :: c :: cs else (a :: c) :: cs := rfl

theorem gapSplit_shape (tol : ℚ) : ∀ (a : ℚ × ℚ) (l : List (ℚ × ℚ)),
    ∃ t cs, gapSplit tol (a :: l) = (a :: t) :: cs
  | a, [] => ⟨[], [], rfl⟩
  | a, b :: l => by
      obtain ⟨t, cs, h⟩ := gapSplit_shape tol b l
      rw [gapSplit_cons]
      rw [h]
      by_cases hg : b.1 - a.1 > tol
      · exact ⟨[], (b :: t) :: cs, by simp [hg]⟩
      · exact ⟨b :: t, cs, by simp [hg]⟩

theorem gapSplit_join (tol : ℚ) : ∀ l : List (ℚ × ℚ), (gapSplit tol l).flatten = l
  | [] => by simp [gapSplit]
  | [a] => by simp [gapSplit]
  | a :: b :: l => by
      have ih := gapSplit_join tol (b :: l)
      obtain ⟨t, cs, h⟩ := gapSplit_shape tol b l
      rw [gapSplit_cons, h]
      rw [h] at ih
      by_cases hg : b.1 - a.1 > tol
      · simp only [if_pos hg, List.flatten_cons]
        simp only [List.flatten_cons] at ih
        simp [ih]
      · simp only [if_neg hg, List.flatten_cons]
        simp only [List.flatten_cons] at ih
        simp [ih]

theorem gapSplit_clusters_ne_nil (tol : ℚ) : ∀ l : List (ℚ × ℚ), l ≠ [] →
    ∀ cl ∈ gapSplit tol l, cl ≠ []
  | [], h, _, _ => absurd rfl h
  | [a], _, cl, hcl => by
      simp only [gapSplit, List.mem_singleton] at hcl
      simp [hcl]
  | a :: b :: l, _, cl, hcl => by
      obtain ⟨t, cs, h⟩ := gapSplit_shape tol b l
      rw [gapSplit_cons, h] at hcl
      by_cases hg : b.1 - a.1 > tol
      · simp only [if_pos hg, List.mem_cons] at hcl
        rcases hcl with rfl | hcl
        · simp
        · exact gapSplit_clusters_ne_nil tol (b :: l) (by simp) cl (by rw [h]; exact List.mem_cons.mpr hcl)
      · simp only [if_neg hg, List.mem_cons] at hcl
        rcases hcl with rfl | hcl
        · simp
        · exact gapSplit_clusters_ne_nil tol (b :: l) (by simp) cl
            (by rw [h]; exact List.mem_cons_of_mem _ hcl)

theorem gapSplit_within (tol : ℚ) : ∀ l : List (ℚ × ℚ), ∀ cl ∈ gapSplit tol l,
    List.Chain' (fun a b : ℚ × ℚ => b.1 - a.1 ≤ tol) cl
  | [], cl, hcl => by
      simp only [gapSplit, List.mem_singleton] at hcl
      simp [hcl]
  | [a], cl, hcl => by
      simp only [gapSplit, List.mem_singleton] at hcl
      simp [hcl]
  | a :: b :: l, cl, hcl => by
      obtain ⟨t, cs, h⟩ := gapSplit_shape tol b l
      rw [gapSplit_cons, h] at hcl
      by_cases hg : b.1 - a.1 > tol
      · simp only [if_pos hg, List.mem_cons] at hcl
        rcases hcl with rfl | hcl
        · simp
        · exact gapSplit_within tol (b :: l) cl (by rw [h]; exact List.mem_cons.mpr hcl)
      · simp only [if_neg hg, List.mem_cons] at hcl
        rcases hcl with rfl | hcl
        · have hbt := gapSplit_within tol (b :: l) (b :: t) (by rw [h]; simp)
          exact List.chain'_cons.mpr ⟨by linarith [not_lt.mp hg], hbt⟩
        · exact gapSplit_within tol (b :: l) cl (by rw [h]; exact List.mem_cons_of_mem _ hcl)

theorem gapSplit_between (tol : ℚ) : ∀ l : List (ℚ × ℚ),
    List.Chain' (fun c1 c2 : List (ℚ × ℚ) => ∃ a b, c1.getLast? = some a
      ∧ c2.head? = some b ∧ tol < b.1 - a.1) (gapSplit tol l)
  | [] => by simp [gapSplit]
  | [a] => by simp [gapSplit]
  | a :: b :: l => by
      have ih := gapSplit_between tol (b :: l)
      obtain ⟨t, cs, h⟩ := gapSplit_shape tol b l
      rw [gapSplit_cons, h]
      rw [h] at ih
      by_cases hg : b.1 - a.1 > tol
      · simp only [if_pos hg]
        exact List.chain'_cons.mpr ⟨⟨a, b, by simp, by simp, hg⟩, ih⟩
      · simp only [if_neg hg]
        rw [List.chain'_cons'] at ih ⊢
        refine ⟨?_, ih.2⟩
        intro y hy
        obtain ⟨p, q, hp, hq, hpq⟩ := ih.1 y hy
        refine ⟨p, q, ?_, hq, hpq⟩
        rw [← hp]
        rcases t with _ | ⟨t0, ts⟩
        · simp
        · simp

/-! ### HPD helper lemmas -/

instance : IsTotal (ℚ × ℚ) (fun a b : ℚ × ℚ => a.1 ≤ b.1) :=
  ⟨fun a b => le_total a.1 b.1⟩

instance : IsTrans (ℚ × ℚ) (fun a b : ℚ × ℚ => a.1 ≤ b.1) :=
  ⟨fun _ _ _ hab hbc => le_trans hab hbc⟩

theorem hpdSorted_perm (x px1 : List ℚ) : List.Perm (hpdSorted x px1) (x.zip px1) := by
  rw [hpdSorted]
  exact (List.reverse_perm _).trans (List.perm_insertionSort _ _)

theorem filter_zip_map_fst_sublist {α β : Type} (P : α × β → Bool) :
    ∀ (s : List α) (c : List β), (((s.zip c).filter P).map Prod.fst).Sublist s
  | [], c => by simp
  | a :: s, [] => by simp
  | a :: s, b :: c => by
      have ih := filter_zip_map_fst_sublist P s c
      simp only [List.zip_cons_cons, List.filter_cons]
      by_cases hP : P (a, b)
      · simp only [if_pos hP, List.map_cons]
        exact List.Sublist.cons₂ a ih
      · simp only [if_neg hP]
        exact List.Sublist.cons a ih

theorem hpdRelevant_sublist_sorted (x px1 : List ℚ) (c : ℚ) :
    (hpdRelevant x px1 c).Sublist (hpdSorted x px1) := by
  rw [hpdRelevant]
  rcases h : npmax (cumsum ((hpdSorted x px1).map Prod.snd)) with _ | m
  · simp [h]
  · simp only [h]
    exact filter_zip_map_fst_sublist _ (hpdSorted x px1) _

theorem hpd_nodup_fst (x px1 : List ℚ) (c : ℚ) (hx : List.Chain' (· < ·) x)
    (hlen : x.length ≤ px1.length) :
    ((hpdRelevant x px1 c).map Prod.fst).Nodup := by
  have hxnd : x.Nodup := (List.chain'_iff_pairwise.mp hx).imp (fun h => ne_of_lt h)
  have hzip : (x.zip px1).map Prod.fst = x := List.map_fst_zip x px1 hlen
  have hs : List.Perm ((hpdSorted x px1).map Prod.fst) x := by
    have := (hpdSorted_perm x px1).map Prod.fst
    rwa [hzip] at this
  have hsnd : ((hpdSorted x px1).map Prod.fst).Nodup := hs.nodup_iff.mpr hxnd
  exact List.Nodup.sublist ((hpdRelevant_sublist_sorted x px1 c).map Prod.fst) hsnd

theorem hpd_relS_chain_lt (x px1 : List ℚ) (c : ℚ) (hx : List.Chain' (· < ·) x)
    (hlen : x.length ≤ px1.length) :
    List.Chain' (fun a b : ℚ × ℚ => a.1 < b.1)
      (List.insertionSort (fun a b : ℚ × ℚ => a.1 ≤ b.1) (hpdRelevant x px1 c)) := by
  set rel := hpdRelevant x px1 c with hrel
  set relS := List.insertionSort (fun a b : ℚ × ℚ => a.1 ≤ b.1) rel with hrelS
  have hsorted : relS.Pairwise (fun a b : ℚ × ℚ => a.1 ≤ b.1) :=
    List.sorted_insertionSort _ rel
  have hperm : List.Perm (relS.map Prod.fst) (rel.map Prod.fst) :=
    (List.perm_insertionSort _ rel).map Prod.fst
  have hnodup : (relS.map Prod.fst).Nodup :=
    hperm.nodup_iff.mpr (hpd_nodup_fst x px1 c hx hlen)
  have hne : relS.Pairwise (fun a b : ℚ × ℚ => a.1 ≠ b.1) :=
    List.pairwise_map.mp hnodup
  exact (hsorted.and hne).imp (fun h => lt_of_le_of_ne h.1 h.2) |>.chain'

theorem hpd_relevant_eq_spec (x px1 : List ℚ) (c : ℚ)
    (hne : x.zip px1 ≠ []) (hnn : ∀ p ∈ px1, 0 ≤ p)
    (hlen : px1.length ≤ x.length) :
    hpdRelevant x px1 c = hpdRelevantSpec x px1 c := by
  have hpermsnd : List.Perm ((hpdSorted x px1).map Prod.snd) px1 := by
    have := (hpdSorted_perm x px1).map Prod.snd
    rwa [List.map_snd_zip x px1 hlen] at this
  have hsne : (hpdSorted x px1).map Prod.snd ≠ [] := by
    intro h
    rw [h] at hpermsnd
    have hnil : px1 = [] := hpermsnd.symm.eq_nil
    exact hne (by rw [hnil, List.zip_nil_right])
  have hsnn : ∀ p ∈ (hpdSorted x px1).map Prod.snd, 0 ≤ p :=
    fun p hp => hnn p (hpermsnd.mem_iff.mp hp)
  have hmax := npmax_cumsum_eq_sum _ hsne hsnn
  have hsum : ((hpdSorted x px1).map Prod.snd).sum = px1.sum := hpermsnd.sum_eq
  rw [hpdRelevant, hpdRelevantSpec]
  simp only [hmax, hsum]

theorem HPDpdf_inv (x px : List ℚ) (conf lo hi : ℚ) (cls : List (List (ℚ × ℚ)))
    (hres : HPDpdf x px conf = some (lo, hi, cls)) :
    ∃ r rs, List.insertionSort (fun a b : ℚ × ℚ => a.1 ≤ b.1)
        (hpdRelevant x (normalizePx x px) (conf / 100)) = r :: rs
      ∧ cls = gapSplit ((101/100) * mean (diffs x)) (r :: rs)
      ∧ npmin ((r :: rs).map Prod.fst) = some lo
      ∧ npmax ((r :: rs).map Prod.fst) = some hi := by
  rcases hS : List.insertionSort (fun a b : ℚ × ℚ => a.1 ≤ b.1)
      (hpdRelevant x (normalizePx x px) (conf / 100)) with _ | ⟨r, rs⟩
  · rw [HPDpdf] at hres
    simp only [hS, List.map_nil, npmin, npmax] at hres
    exact Option.noConfusion hres
  · rw [HPDpdf] at hres
    simp only [hS, List.map_cons, npmin, npmax, Option.some_inj, Prod.mk.injEq] at hres
    obtain ⟨hlo, hhi, hcls⟩ := hres
    refine ⟨r, rs, rfl, hcls.symm, ?_, ?_⟩
    · simp [npmin, hlo]
    · simp [npmax, hhi]

/-! ### Quotient helper lemmas -/

theorem formatPDF_scale (X pX : List ℚ) (a : ℚ) (ha : 0 < a) :
    formatPDF X (pX.map (a * ·)) = formatPDF X pX := by
  have htr : trapz (pX.map (a * ·)) X = a * trapz pX X := trapz_map_mul pX X a
  have hmap : (pX.map (a * ·)).map (· / trapz (pX.map (a * ·)) X)
      = pX.map (· / trapz pX X) := by
    rw [htr, List.map_map]
    apply List.map_congr_left
    intro v _
    simp only [Function.comp]
    rcases eq_or_ne (trapz pX X) 0 with h0 | h0
    · rw [h0, mul_zero, div_zero, div_zero]
    · rw [mul_div_mul_left v (trapz pX X) (ne_of_gt ha)]
  rw [formatPDF, formatPDF, hmap]

theorem PDFquotient_scale (Xn pXn Xd pXd : List ℚ) (stepS QmU : Option ℚ)
    (a b : ℚ) (ha : 0 < a) (hb : 0 < b) :
    PDFquotient Xn (pXn.map (a * ·)) Xd (pXd.map (b * ·)) stepS QmU
      = PDFquotient Xn pXn Xd pXd stepS QmU := by
  rw [PDFquotient, PDFquotient, formatPDF_scale Xn pXn a ha, formatPDF_scale Xd pXd b hb]

instance : IsTrans (ℚ × ℚ) (fun a b : ℚ × ℚ => a.1 < b.1) :=
  ⟨fun _ _ _ hab hbc => lt_trans hab hbc⟩

theorem pairwise_clusters_of_flatten {α : Type} (r : α → α → Prop) :
    ∀ LL : List (List α), LL.flatten.Pairwise r →
      LL.Pairwise (fun c1 c2 => ∀ a ∈ c1, ∀ b ∈ c2, r a b)
  | [], _ => List.Pairwise.nil
  | c :: cs, h => by
      rw [List.flatten_cons, List.pairwise_append] at h
      refine List.pairwise_cons.mpr ⟨?_, pairwise_clusters_of_flatten r cs h.2.1⟩
      intro c2 hc2 a ha b hb
      exact h.2.2 a ha b (List.mem_flatten.mpr ⟨c2, hc2, hb⟩)

/-! ### Claim theorems -/

/-- Claim C6, counterexample: the spec says `computeIQR`/`computeHPD` leave the
caller's `p` sequence unchanged, but the in-place `px/=P` normalization
(PDFanalysis.py lines 31 and 79) rewrites the buffer: for `x = [0,1]`,
`px = [2,2]` (trapezoidal area 2) the buffer afterwards holds `[1,1]`. -/
theorem c6_counterexample :
    IQRfinalPx [0, 1] [2, 2] ≠ [2, 2] ∧ HPDfinalPx [0, 1] [2, 2] ≠ [2, 2] := by
  constructor <;> norm_num [IQRfinalPx, HPDfinalPx, normalizePx, trapz]

/-- Claim C6 (amended): both calls write the re-normalized densities back
through the caller's `p` buffer (`p ← p / ∫p dx`, in place); the buffer is
element-wise unchanged whenever the input already has unit trapezoidal area
(`x` is never written). -/
theorem c6_inplace_normalization (x px : List ℚ) (h : trapz px x = 1) :
    IQRfinalPx x px = px ∧ HPDfinalPx x px = px := by
  constructor <;> simp [IQRfinalPx, HPDfinalPx, normalizePx, h]

/-- Witness for the amended C6 at `x = [0,2]`, `px = [1/2,1/2]`. -/
theorem c6_witness : trapz [(1:ℚ)/2, 1/2] [0, 2] = 1 ∧
    (IQRfinalPx [0, 2] [(1:ℚ)/2, 1/2] = [(1:ℚ)/2, 1/2]
      ∧ HPDfinalPx [0, 2] [(1:ℚ)/2, 1/2] = [(1:ℚ)/2, 1/2]) :=
  ⟨by norm_num [trapz], c6_inplace_normalization [0, 2] [(1:ℚ)/2, 1/2] (by norm_num [trapz])⟩

/-- Claim C9: multiplying the numerator and denominator densities by positive
constants `a` and `b` does not change the quotient output, because
`__formatPDF__` first divides each density by its own trapezoidal area. -/
theorem c9_scale_invariance (Xn pXn Xd pXd : List ℚ) (stepS QmU : Option ℚ)
    (a b : ℚ) (ha : 0 < a) (hb : 0 < b) :
    PDFquotient Xn (pXn.map (a * ·)) Xd (pXd.map (b * ·)) stepS QmU
      = PDFquotient Xn pXn Xd pXd stepS QmU :=
  PDFquotient_scale Xn pXn Xd pXd stepS QmU a b ha hb

/-- Witness for C9 with scale factors 2 and 3. -/
theorem c9_witness : (0:ℚ) < 2 ∧ (0:ℚ) < 3 ∧
    PDFquotient [1, 2] (([1, 1] : List ℚ).map ((2:ℚ) * ·)) [1, 2]
        (([1, 1] : List ℚ).map ((3:ℚ) * ·)) (some 1) none
      = PDFquotient [1, 2] [1, 1] [1, 2] [1, 1] (some 1) none :=
  ⟨by norm_num, by norm_num,
    c9_scale_invariance [1, 2] [1, 1] [1, 2] [1, 1] (some 1) none 2 3
      (by norm_num) (by norm_num)⟩

/-- Claim C8, counterexample: the spec says `computeIQR` fails for confidence
fractions 0 and 1 exactly, but `IQRpdf` performs no such check: at confidence
percent 0 it returns the median twice, and at 100 it returns the support
endpoints, both without error. -/
theorem c8_counterexample :
    IQRpdf [0, 1] [1, 1] 0 = some (1/2, 1/2)
      ∧ IQRpdf [0, 1] [1, 1] 100 = some (0, 1) := by
  constructor <;>
    norm_num [IQRpdf, normalizePx, trapz, cumtrapz, cumtrapzFrom,
      interpPts_cons, interpPts_single]

/-- Claim C8 (amended): for a valid sampled PDF, `computeIQR` fails exactly
when a target cumulative value `0.5 ± c/2` falls outside the computed CDF
range `[0, 1]`, i.e. exactly when the percent confidence lies outside
`[-100, 100]`; it performs no `(0,1)` check on the fraction itself, so
`c = 0` and `c = 1` return bounds without error. -/
theorem c8_failure_iff (x px : List ℚ) (conf : ℚ) (hlen : x.length = px.length)
    (hx : List.Chain' (· < ·) x) (hp : ∀ p ∈ px, 0 ≤ p) (hT : 0 < trapz px x) :
    IQRpdf x px conf = none ↔ (conf < -100 ∨ 100 < conf) := by
  constructor
  · intro hnone
    by_contra hc
    push_neg at hc
    rw [IQRpdf_some x px conf hlen (hx.imp fun a b h => le_of_lt h) hp hT
      hc.1 hc.2] at hnone
    exact Option.noConfusion hnone
  · exact IQRpdf_none x px conf hlen (hx.imp fun a b h => le_of_lt h) hp hT

/-- Witness for the amended C8 at `x = [0,1]`, `px = [1,1]`, confidence 50. -/
theorem c8_witness : (([0, 1] : List ℚ).length = ([1, 1] : List ℚ).length
      ∧ List.Chain' (· < ·) ([0, 1] : List ℚ)
      ∧ (∀ p ∈ ([1, 1] : List ℚ), 0 ≤ p)
      ∧ (0:ℚ) < trapz [1, 1] [0, 1])
    ∧ (IQRpdf [0, 1] [1, 1] 50 = none ↔ ((50:ℚ) < -100 ∨ (100:ℚ) < 50)) :=
  ⟨⟨by norm_num, by norm_num, by norm_num, by norm_num [trapz]⟩,
    c8_failure_iff [0, 1] [1, 1] 50 (by norm_num) (by norm_num)
      (by norm_num) (by norm_num [trapz])⟩

/-- Claim C3: for a sampled PDF with strictly increasing `x`, non-negative
densities and positive total area, and a percent confidence strictly between
0 and 100, `IQRpdf` returns bounds `(lo, hi)` at which the piecewise-linear
CDF (cumulative trapezoidal integral of the re-normalized densities, anchored
at 0) evaluates to `0.5 - c/2` and `0.5 + c/2` respectively, `c` being the
confidence divided by 100. -/
theorem c3_iqr_inverts_cdf (x px : List ℚ) (conf : ℚ)
    (hlen : x.length = px.length) (hx : List.Chain' (· < ·) x)
    (hp : ∀ p ∈ px, 0 ≤ p) (hT : 0 < trapz px x)
    (hc0 : 0 < conf) (hc1 : conf < 100) :
    ∃ lo hi, IQRpdf x px conf = some (lo, hi)
      ∧ interpPts (x.zip (cumtrapz (normalizePx x px) x)) lo = 1/2 - conf/100/2
      ∧ interpPts (x.zip (cumtrapz (normalizePx x px) x)) hi = 1/2 + conf/100/2 := by
  refine ⟨_, _, IQRpdf_some x px conf hlen (hx.imp fun a b h => le_of_lt h) hp hT
    (by linarith) (by linarith), ?_, ?_⟩
  · exact iqr_roundtrip_target x px (1/2 - conf/100/2) hlen hx hp hT
      (by linarith) (by linarith)
  · exact iqr_roundtrip_target x px (1/2 + conf/100/2) hlen hx hp hT
      (by linarith) (by linarith)

/-- Witness for C3 at `x = [0,1]`, `px = [1,1]`, confidence 60. -/
theorem c3_witness : (([0, 1] : List ℚ).length = ([1, 1] : List ℚ).length
      ∧ List.Chain' (· < ·) ([0, 1] : List ℚ)
      ∧ (∀ p ∈ ([1, 1] : List ℚ), 0 ≤ p)
      ∧ (0:ℚ) < trapz [1, 1] [0, 1] ∧ (0:ℚ) < 60 ∧ (60:ℚ) < 100)
    ∧ (∃ lo hi, IQRpdf [0, 1] [1, 1] 60 = some (lo, hi)
      ∧ interpPts (([0, 1] : List ℚ).zip (cumtrapz (normalizePx [0, 1] [1, 1]) [0, 1])) lo
          = 1/2 - 60/100/2
      ∧ interpPts (([0, 1] : List ℚ).zip (cumtrapz (normalizePx [0, 1] [1, 1]) [0, 1])) hi
          = 1/2 + 60/100/2) :=
  ⟨⟨by norm_num, by norm_num, by norm_num, by norm_num [trapz], by norm_num, by norm_num⟩,
    c3_iqr_inverts_cdf [0, 1] [1, 1] 60 (by norm_num) (by norm_num) (by norm_num)
      (by norm_num [trapz]) (by norm_num) (by norm_num)⟩

/-- Claim C2: for a valid sampled PDF, the retained-sample list of `HPDpdf` —
computed by normalizing the running cumulative sum of descending densities by
the cumulative sum's own maximum — coincides with the specification's reading
in which the divisor is the plain sum of all re-normalized density values
(the maximum of a cumulative sum of non-negative values is that plain sum,
not the trapezoidal mass 1). -/
theorem c2_hpd_retained_set (x px : List ℚ) (c : ℚ)
    (hlen : px.length ≤ x.length) (hne : x.zip (normalizePx x px) ≠ [])
    (hp : ∀ p ∈ px, 0 ≤ p) (hT : 0 < trapz px x) :
    hpdRelevant x (normalizePx x px) c = hpdRelevantSpec x (normalizePx x px) c :=
  hpd_relevant_eq_spec x (normalizePx x px) c hne
    (normalizePx_nonneg x px hp hT) (by simpa [normalizePx] using hlen)

/-- Witness for C2 at `x = [0,1,2,3]`, `px = [1,3,1,3]`, fraction `4/5`. -/
theorem c2_witness : (([1, 3, 1, 3] : List ℚ).length ≤ ([0, 1, 2, 3] : List ℚ).length
      ∧ ([0, 1, 2, 3] : List ℚ).zip (normalizePx [0, 1, 2, 3] [1, 3, 1, 3]) ≠ []
      ∧ (∀ p ∈ ([1, 3, 1, 3] : List ℚ), 0 ≤ p)
      ∧ (0:ℚ) < trapz [1, 3, 1, 3] [0, 1, 2, 3])
    ∧ hpdRelevant [0, 1, 2, 3] (normalizePx [0, 1, 2, 3] [1, 3, 1, 3]) (4/5)
      = hpdRelevantSpec [0, 1, 2, 3] (normalizePx [0, 1, 2, 3] [1, 3, 1, 3]) (4/5) :=
  ⟨⟨by norm_num, by simp [normalizePx], by norm_num, by norm_num [trapz]⟩,
    c2_hpd_retained_set [0, 1, 2, 3] [1, 3, 1, 3] (4/5) (by norm_num)
      (by simp [normalizePx]) (by norm_num) (by norm_num [trapz])⟩

/-- Claim C10: whenever `HPDpdf` returns normally, the cluster list is
non-empty and every cluster in it is non-empty — the final slice
`xRelevant[breakpt:]` is always appended and every intermediate slice spans
at least one retained sample. -/
theorem c10_clusters_nonempty (x px : List ℚ) (conf lo hi : ℚ)
    (cls : List (List (ℚ × ℚ))) (hres : HPDpdf x px conf = some (lo, hi, cls)) :
    cls ≠ [] ∧ ∀ cl ∈ cls, cl ≠ [] := by
  obtain ⟨r, rs, hS, hcls, _, _⟩ := HPDpdf_inv x px conf lo hi cls hres
  subst hcls
  constructor
  · obtain ⟨t, cs, hshape⟩ := gapSplit_shape (101/100 * mean (diffs x)) r rs
    rw [hshape]
    simp
  · exact gapSplit_clusters_ne_nil _ (r :: rs) (by simp)

/-- Witness for C10 at `x = [0,1,2,3]`, `px = [1,3,1,3]`, confidence 80. -/
theorem c10_witness : HPDpdf [0, 1, 2, 3] [1, 3, 1, 3] 80
      = some (1, 3, [[((1:ℚ), (1:ℚ)/2)], [(3, 1/2)]])
    ∧ ([[((1:ℚ), (1:ℚ)/2)], [(3, 1/2)]] ≠ ([] : List (List (ℚ × ℚ)))
      ∧ ∀ cl ∈ [[((1:ℚ), (1:ℚ)/2)], [(3, 1/2)]], cl ≠ []) :=
  ⟨by norm_num [HPDpdf, hpdRelevant, hpdSorted, normalizePx, trapz, cumsum,
      cumsumFrom, npmax, npmin, mean, diffs, List.insertionSort,
      List.orderedInsert, gapSplit],
    c10_clusters_nonempty [0, 1, 2, 3] [1, 3, 1, 3] 80 1 3 _
      (by norm_num [HPDpdf, hpdRelevant, hpdSorted, normalizePx, trapz, cumsum,
        cumsumFrom, npmax, npmin, mean, diffs, List.insertionSort,
        List.orderedInsert, gapSplit])⟩

/-- Claim C4: when `HPDpdf` retains at least one sample, the returned clusters
are the x-ascending retained samples split exactly at gaps exceeding 1.01
times the mean spacing of the full input axis: their concatenation is the
x-sorted retained list (a permutation of the retained-sample set), gaps
inside a cluster are at most the tolerance while gaps between consecutive
clusters exceed it, the clusters are pairwise disjoint and ordered ascending
in `x`, and `(lowest, highest)` are the minimum and maximum retained
`x` values. -/
theorem c4_hpd_cluster_structure (x px : List ℚ) (conf lo hi : ℚ)
    (cls : List (List (ℚ × ℚ)))
    (hlen : x.length ≤ px.length) (hx : List.Chain' (· < ·) x)
    (hres : HPDpdf x px conf = some (lo, hi, cls)) :
    cls.flatten = List.insertionSort (fun a b : ℚ × ℚ => a.1 ≤ b.1)
        (hpdRelevant x (normalizePx x px) (conf / 100))
      ∧ List.Perm cls.flatten (hpdRelevant x (normalizePx x px) (conf / 100))
      ∧ (∀ cl ∈ cls, List.Chain'
          (fun a b : ℚ × ℚ => b.1 - a.1 ≤ 101/100 * mean (diffs x)) cl)
      ∧ List.Chain' (fun c1 c2 : List (ℚ × ℚ) => ∃ a b, c1.getLast? = some a
          ∧ c2.head? = some b ∧ 101/100 * mean (diffs x) < b.1 - a.1) cls
      ∧ cls.Pairwise (fun c1 c2 => ∀ a ∈ c1, ∀ b ∈ c2, a.1 < b.1)
      ∧ (∀ p ∈ hpdRelevant x (normalizePx x px) (conf / 100), lo ≤ p.1 ∧ p.1 ≤ hi)
      ∧ lo ∈ (hpdRelevant x (normalizePx x px) (conf / 100)).map Prod.fst
      ∧ hi ∈ (hpdRelevant x (normalizePx x px) (conf / 100)).map Prod.fst := by
  obtain ⟨r, rs, hS, hcls, hmin, hmax⟩ := HPDpdf_inv x px conf lo hi cls hres
  have hlen1 : x.length ≤ (normalizePx x px).length := by
    simpa [normalizePx] using hlen
  have hflat : cls.flatten = r :: rs := by
    rw [hcls]
    exact gapSplit_join _ _
  have hpermS : List.Perm (r :: rs) (hpdRelevant x (normalizePx x px) (conf / 100)) := by
    rw [← hS]
    exact List.perm_insertionSort _ _
  have hchainlt : List.Chain' (fun a b : ℚ × ℚ => a.1 < b.1) (r :: rs) := by
    rw [← hS]
    exact hpd_relS_chain_lt x (normalizePx x px) (conf / 100) hx hlen1
  refine ⟨by rw [hflat, hS], by rw [hflat]; exact hpermS, ?_, ?_, ?_, ?_, ?_, ?_⟩
  · intro cl hcl
    rw [hcls] at hcl
    exact gapSplit_within _ _ cl hcl
  · rw [hcls]
    exact gapSplit_between _ _
  · have hpw : cls.flatten.Pairwise (fun a b : ℚ × ℚ => a.1 < b.1) := by
      rw [hflat]
      exact List.chain'_iff_pairwise.mp hchainlt
    exact pairwise_clusters_of_flatten _ cls hpw
  · intro p hpmemrel
    have hpmem : p.1 ∈ (r :: rs).map Prod.fst :=
      ((hpermS.map Prod.fst).mem_iff).mpr (List.mem_map_of_mem Prod.fst hpmemrel)
    exact ⟨(npmin_spec _ _ hmin).2 p.1 hpmem, (npmax_spec _ _ hmax).2 p.1 hpmem⟩
  · exact ((hpermS.map Prod.fst).mem_iff).mp (npmin_spec _ _ hmin).1
  · exact ((hpermS.map Prod.fst).mem_iff).mp (npmax_spec _ _ hmax).1

/-- Witness for C4 at `x = [0,1,2,3]`, `px = [3,1,3,1]`, confidence 80. -/
theorem c4_witness :
    (([0, 1, 2, 3] : List ℚ).length ≤ ([3, 1, 3, 1] : List ℚ).length
      ∧ List.Chain' (· < ·) ([0, 1, 2, 3] : List ℚ)
      ∧ HPDpdf [0, 1, 2, 3] [3, 1, 3, 1] 80
          = some (0, 2, [[((0:ℚ), (1:ℚ)/2)], [(2, 1/2)]]))
    ∧ (([[((0:ℚ), (1:ℚ)/2)], [(2, 1/2)]] : List (List (ℚ × ℚ))).flatten
        = List.insertionSort (fun a b : ℚ × ℚ => a.1 ≤ b.1)
            (hpdRelevant [0, 1, 2, 3] (normalizePx [0, 1, 2, 3] [3, 1, 3, 1]) (80 / 100))
      ∧ List.Perm ([[((0:ℚ), (1:ℚ)/2)], [(2, 1/2)]] : List (List (ℚ × ℚ))).flatten
          (hpdRelevant [0, 1, 2, 3] (normalizePx [0, 1, 2, 3] [3, 1, 3, 1]) (80 / 100))
      ∧ (∀ cl ∈ ([[((0:ℚ), (1:ℚ)/2)], [(2, 1/2)]] : List (List (ℚ × ℚ))), List.Chain'
          (fun a b : ℚ × ℚ => b.1 - a.1 ≤ 101/100 * mean (diffs [0, 1, 2, 3])) cl)
      ∧ List.Chain' (fun c1 c2 : List (ℚ × ℚ) => ∃ a b, c1.getLast? = some a
          ∧ c2.head? = some b ∧ 101/100 * mean (diffs [0, 1, 2, 3]) < b.1 - a.1)
          ([[((0:ℚ), (1:ℚ)/2)], [(2, 1/2)]] : List (List (ℚ × ℚ)))
      ∧ ([[((0:ℚ), (1:ℚ)/2)], [(2, 1/2)]] : List (List (ℚ × ℚ))).Pairwise
          (fun c1 c2 => ∀ a ∈ c1, ∀ b ∈ c2, a.1 < b.1)
      ∧ (∀ p ∈ hpdRelevant [0, 1, 2, 3] (normalizePx [0, 1, 2, 3] [3, 1, 3, 1]) (80 / 100),
          (0:ℚ) ≤ p.1 ∧ p.1 ≤ (2:ℚ))
      ∧ (0:ℚ) ∈ (hpdRelevant [0, 1, 2, 3]
          (normalizePx [0, 1, 2, 3] [3, 1, 3, 1]) (80 / 100)).map Prod.fst
      ∧ (2:ℚ) ∈ (hpdRelevant [0, 1, 2, 3]
          (normalizePx [0, 1, 2, 3] [3, 1, 3, 1]) (80 / 100)).map Prod.fst) :=
  ⟨⟨by norm_num, by norm_num,
    by norm_num [HPDpdf, hpdRelevant, hpdSorted, normalizePx, trapz, cumsum,
      cumsumFrom, npmax, npmin, mean, diffs, List.insertionSort,
      List.orderedInsert, gapSplit]⟩,
    c4_hpd_cluster_structure [0, 1, 2, 3] [3, 1, 3, 1] 80 0 2
      [[((0:ℚ), (1:ℚ)/2)], [(2, 1/2)]] (by norm_num) (by norm_num)
      (by norm_num [HPDpdf, hpdRelevant, hpdSorted, normalizePx, trapz, cumsum,
        cumsumFrom, npmax, npmin, mean, diffs, List.insertionSort,
        List.orderedInsert, gapSplit])⟩

end FaultSlipRates
